import Mathlib

set_option maxRecDepth 40000

/-!
Verification of the food-delivery route optimizer and its ephemeral route
store, shallowly embedded from the Python sources `route_optimizer.py`,
`firestore_storage.py` and `functions/main.py`.

Conventions of the embedding:
* Python `float` costs coming from the distance matrix are natural numbers
  (metres / seconds, as delivered by the API) extended with the unreachable
  sentinel `float('inf')`; they are modelled by `ℕ∞ = WithTop ℕ`, whose
  addition (`⊤ + x = ⊤`) and strict order (`¬ ⊤ < ⊤`, `x < ⊤` for finite `x`)
  agree with IEEE arithmetic on nonnegative values and `inf`.
* Python strings are lists of UTF-8 bytes (`List ℕ`) where the byte values
  matter (URL encoding), and lists of characters (`List Char`) elsewhere.
* Fallible Python code (exceptions) is modelled with `Option`/`Except`.
-/

/-- Cost of a closed tour: `sum(distances[order[i]][order[i+1]] for i in
range(len(order)-1))` in `_brute_force_tsp`. -/
def tourCost (d : ℕ → ℕ → ℕ∞) : List ℕ → ℕ∞
  | a :: b :: rest => d a b + tourCost d (b :: rest)
  | _ => 0

/-- Fuelled generator of all permutations of a list, in the order
`itertools.permutations` yields them: the element at index `i` (ascending)
is placed first, followed recursively by the permutations of the remainder
with its order preserved.  `perms` instantiates the fuel with the length. -/
def permsAux : ℕ → List ℕ → List (List ℕ)
  | 0, _ => [[]]
  | fuel + 1, l =>
    (List.range l.length).flatMap fun i =>
      (permsAux fuel (l.eraseIdx i)).map fun p => l.getD i 0 :: p

/-- All permutations of `l` in `itertools.permutations` generation order. -/
def perms (l : List ℕ) : List (List ℕ) := permsAux l.length l

/-- `_brute_force_tsp(distances, start, waypoints)`: iterate over all
permutations keeping the strictly best closed tour; `min_distance` starts at
`float('inf')` and `best_order` at `None`. -/
def brute_force_tsp (d : ℕ → ℕ → ℕ∞) (start : ℕ) (waypoints : List ℕ) :
    Option (List ℕ) :=
  if waypoints.isEmpty then some [start, start]
  else
    ((perms waypoints).foldl
      (fun acc perm =>
        let order := start :: perm ++ [start]
        let dist := tourCost d order
        if dist < acc.1 then (dist, some order) else acc)
      ((⊤ : ℕ∞), (none : Option (List ℕ)))).2

/-- Python's `min(iterable, key=key)`: the first element of the iteration in
order whose key is strictly smaller than every earlier candidate, i.e. the
earliest element attaining the minimum key.  `none` on the empty list. -/
def pyMinBy (key : ℕ → ℕ∞) : List ℕ → Option ℕ
  | [] => none
  | x :: xs => some (xs.foldl (fun best y => if key y < key best then y else best) x)

/-- CPython iterates a `set` of small nonnegative ints (hash(i) = i, table
larger than every element) in ascending order; `set(waypoints)` in
`_nearest_neighbor_tsp` is therefore modelled as the deduplicated, ascending
list of the waypoints. -/
def pySet (l : List ℕ) : List ℕ := List.insertionSort (· ≤ ·) l.dedup

/-- The `while unvisited` loop of `_nearest_neighbor_tsp`: move to the
`min`-by-cost unvisited waypoint, remove it, repeat.  The fuel is
instantiated with the number of unvisited waypoints. -/
def nnAux (d : ℕ → ℕ → ℕ∞) : ℕ → ℕ → List ℕ → List ℕ
  | 0, _, _ => []
  | fuel + 1, current, unvisited =>
    match pyMinBy (fun x => d current x) unvisited with
    | none => []
    | some nearest => nearest :: nnAux d fuel nearest (unvisited.erase nearest)

/-- `_nearest_neighbor_tsp(distances, start, waypoints)`. -/
def nearest_neighbor_tsp (d : ℕ → ℕ → ℕ∞) (start : ℕ) (waypoints : List ℕ) :
    List ℕ :=
  if waypoints.isEmpty then [start, start]
  else (start :: nnAux d (pySet waypoints).length start (pySet waypoints)) ++ [start]

/-- The algorithm-selection block of `optimize_route` (lines 71-86): home is
reindexed to `0`, the waypoints are `1 .. n-1`; one fixed waypoint is returned
directly, up to 8 go to the exact solver, more to the heuristic.  `none`
models the `best_order = None` failure of the exact solver. -/
def solveTsp (d : ℕ → ℕ → ℕ∞) (n : ℕ) : Option (List ℕ) :=
  let waypointIndices := List.range' 1 (n - 1)
  if waypointIndices.length ≤ 1 then some (0 :: waypointIndices ++ [0])
  else if waypointIndices.length > 8 then some (nearest_neighbor_tsp d 0 waypointIndices)
  else brute_force_tsp d 0 waypointIndices

/-- Minimum closed-tour cost over all generated permutations (specification
side, for comparison with the fold inside `brute_force_tsp`). -/
def minPermCost (d : ℕ → ℕ → ℕ∞) (start : ℕ) (ws : List ℕ) : ℕ∞ :=
  ((perms ws).map fun p => tourCost d (start :: p ++ [start])).foldr min ⊤

/-- The first permutation in generation order attaining the minimum cost,
made into a closed tour (specification side). -/
def firstMinimalTour (d : ℕ → ℕ → ℕ∞) (start : ℕ) (ws : List ℕ) :
    Option (List ℕ) :=
  ((perms ws).find? fun p =>
      decide (tourCost d (start :: p ++ [start]) = minPermCost d start ws)).map
    fun p => start :: p ++ [start]

/-- Round-half-to-even of the exact quotient `a / b` (for `b > 0`), the
semantics of Python's `round` on the quotients arising here. -/
def rndHalfEvenDiv (a b : ℕ) : ℕ :=
  let f := a / b
  let r := a % b
  if 2 * r < b then f
  else if b < 2 * r then f + 1
  else if f % 2 = 0 then f else f + 1

/-- `round(total_distance / 1000, 2)` of `optimize_route`, with
`round(inf, 2) = inf`.  A result with exactly 2 decimal places is encoded by
its integer number of hundredths of a kilometer, so the conversion plus
rounding of `meters` is round-half-even of `meters * 100 / 1000 = meters / 10`. -/
def roundKm (t : ℕ∞) : ℕ∞ := t.map fun meters => rndHalfEvenDiv meters 10

/-- `round(total_duration / 60, 1)` of `optimize_route`, with
`round(inf, 1) = inf`.  A result with exactly 1 decimal place is encoded by
its integer number of tenths of a minute, so the conversion plus rounding of
`seconds` is round-half-even of `seconds * 10 / 60 = seconds / 6`. -/
def roundMin (t : ℕ∞) : ℕ∞ := t.map fun seconds => rndHalfEvenDiv seconds 6

/-- The totals accumulation of `optimize_route` (lines 93-106): iterate
`enumerate(optimal_order)` and for every index `i < len(order) - 1` add the
matrix value of the leg from `order[i]` to `order[i+1]`. -/
def loopTotal (m : ℕ → ℕ → ℕ∞) (order : List ℕ) : ℕ∞ :=
  order.enum.foldl
    (fun acc p =>
      if p.1 < order.length - 1 then acc + m p.2 (order.getD (p.1 + 1) 0) else acc)
    0

/-- Specification-side total: the sum of the matrix values over the
consecutive pairs of the order. -/
def sumLegs (m : ℕ → ℕ → ℕ∞) (order : List ℕ) : ℕ∞ :=
  ((order.zip order.tail).map fun p => m p.1 p.2).sum

/-- Specification-side distance total: sum the consecutive legs, convert
meters to (hundredths of) kilometers, round once on the aggregate. -/
def specTotalDistanceKm (m : ℕ → ℕ → ℕ∞) (order : List ℕ) : ℕ∞ :=
  (sumLegs m order).map fun meters => rndHalfEvenDiv meters 10

/-- Specification-side duration total: sum the consecutive legs, convert
seconds to (tenths of) minutes, round once on the aggregate. -/
def specTotalDurationMin (m : ℕ → ℕ → ℕ∞) (order : List ℕ) : ℕ∞ :=
  (sumLegs m order).map fun seconds => rndHalfEvenDiv seconds 6

/-- Foil for the rounding claim: convert and round each leg separately and
sum the rounded legs (what the code must NOT compute). -/
def perLegRoundedKm (m : ℕ → ℕ → ℕ∞) (order : List ℕ) : ℕ∞ :=
  ((order.zip order.tail).map fun p =>
      (m p.1 p.2).map fun meters => rndHalfEvenDiv meters 10).sum

/-- Bytes `urllib.parse.quote` never escapes: ASCII alphanumerics and
`_`, `.`, `-`, `~`. -/
def isAlwaysSafeByte (b : ℕ) : Bool :=
  (48 ≤ b && b ≤ 57) || (65 ≤ b && b ≤ 90) || (97 ≤ b && b ≤ 122) ||
    b == 95 || b == 46 || b == 45 || b == 126

/-- Uppercase hexadecimal digit, as `quote` emits in percent-escapes. -/
def hexUpper (n : ℕ) : Char := if n < 10 then Char.ofNat (48 + n) else Char.ofNat (55 + n)

/-- `urllib.parse.quote_plus` on a single UTF-8 byte: safe bytes unchanged,
space to `+`, everything else percent-escaped. -/
def quotePlusByte (b : ℕ) : List Char :=
  if isAlwaysSafeByte b then [Char.ofNat b]
  else if b == 32 then ['+']
  else ['%', hexUpper (b / 16), hexUpper (b % 16)]

/-- `urllib.parse.quote_plus` over the UTF-8 bytes of an address string. -/
def quotePlus : List ℕ → List Char
  | [] => []
  | b :: bs => quotePlusByte b ++ quotePlus bs

/-- The fixed base URL prefix of `_generate_google_maps_url`. -/
def baseUrlChars : List Char := ("https://www.google.com/maps/dir/").toList

/-- Characters a `quote_plus` encoding may emit: unreserved URL characters,
the space replacement `+`, and `%` introducing a hex escape. -/
def outputSafeChar (c : Char) : Bool :=
  c.isAlphanum || c == '_' || c == '.' || c == '-' || c == '~' || c == '+' || c == '%'

/-- Reserved URL characters that must never appear unescaped in an encoded
path segment (spaces, commas, delimiters). -/
def reservedUrlChars : List Char := [' ', ',', '/', '?', '#', '&', '=', ':', ';', '@']

/-- An address entry: `{'address': ..., 'notes': ...}`, strings as UTF-8
byte lists. -/
structure Waypoint where
  address : List ℕ
  notes : List ℕ
deriving DecidableEq

/-- `_generate_google_maps_url(addresses, order)`: percent-encode each
address in visiting order (the loop appends to a list) and `'/'.join` them
onto the base URL. -/
def generate_google_maps_url (addresses : List Waypoint) (order : List ℕ) :
    List Char :=
  let waypointStrs :=
    order.foldl (fun acc idx => acc ++ [quotePlus ((addresses.getD idx ⟨[], []⟩).address)]) []
  baseUrlChars ++ List.intercalate (['/']) waypointStrs

/-- One cell of the distance-matrix response. -/
structure MatrixElement where
  status : List Char
  distance : ℕ
  duration : ℕ
deriving DecidableEq

/-- The distance-matrix API response: a top-level status and the rows of
cells. -/
structure MatrixResp where
  status : List Char
  rows : List (List MatrixElement)
deriving DecidableEq

/-- One numbered itinerary step of the assembled result. -/
structure Step where
  step : ℕ
  address : List ℕ
  notes : List ℕ
  is_home : Bool
deriving DecidableEq

/-- The dict `optimize_route` returns; totals are encoded as hundredths of
a kilometer and tenths of a minute (see `roundKm`, `roundMin`). -/
structure OptResult where
  error : Option (List Char)
  route : List Step
  total_distance : ℕ∞
  total_duration : ℕ∞
  google_maps_url : List Char
deriving DecidableEq

/-- The status string `'OK'`. -/
def okStatus : List Char := ("OK").toList

def msgIndexError : List Char := ("list index out of range").toList

def msgNoWaypoints : List Char := ("No waypoints to visit (only home address found)").toList

def msgApiError : List Char := ("Distance Matrix API error").toList

def msgNoneOrder : List Char := ("TypeError: NoneType object is not iterable").toList

def msgFailPrefix : List Char := ("Route optimization failed: ").toList

/-- The failure dict every error path of `optimize_route` returns. -/
def errResult (msg : List Char) : OptResult := ⟨some msg, [], 0, 0, []⟩

/-- The matrix-extraction loop of `optimize_route` (lines 56-69): read cell
`(i, j)` for `i, j < n`, an `OK` cell yields its metres/seconds values, a
failed cell the `float('inf')` sentinel; a missing row or cell raises
(modelled as `Except.error`). -/
def extractMatrix (resp : MatrixResp) (n : ℕ) :
    Except (List Char) (List (List (ℕ∞ × ℕ∞))) :=
  (List.range n).mapM fun i =>
    (List.range n).mapM fun j =>
      match (resp.rows.get? i).bind (fun row => row.get? j) with
      | none => Except.error msgIndexError
      | some el =>
        Except.ok
          (if el.status = okStatus then ((el.distance : ℕ∞), (el.duration : ℕ∞))
           else ((⊤ : ℕ∞), (⊤ : ℕ∞)))

/-- The route-building loop of `optimize_route` (lines 93-100) over
`enumerate(optimal_order)`; an out-of-range index raises. -/
def buildStepsAux (allAddresses : List Waypoint) :
    List (ℕ × ℕ) → Except (List Char) (List Step)
  | [] => Except.ok []
  | (i, idx) :: rest =>
    match allAddresses.get? idx with
    | none => Except.error msgIndexError
    | some a =>
      match buildStepsAux allAddresses rest with
      | Except.error e => Except.error e
      | Except.ok steps =>
        Except.ok ({ step := i + 1, address := a.address, notes := a.notes,
                     is_home := idx == 0 } :: steps)

def buildSteps (allAddresses : List Waypoint) (order : List ℕ) :
    Except (List Char) (List Step) :=
  buildStepsAux allAddresses order.enum

/-- The body of the `try` block of `optimize_route`: every Python exception
is an `Except.error`, every early `return` of an error dict an `Except.ok`
of that dict. -/
def optimize_route_body (addresses : List Waypoint) (homeIndex : ℕ)
    (resp : MatrixResp) : Except (List Char) OptResult :=
  match addresses.get? homeIndex with
  | none => Except.error msgIndexError
  | some homeAddress =>
    let waypoints := (addresses.enum.filter fun p => p.1 != homeIndex).map fun p => p.2
    if waypoints.isEmpty then Except.ok (errResult msgNoWaypoints)
    else if resp.status ≠ okStatus then Except.ok (errResult msgApiError)
    else
      let allAddresses := homeAddress :: waypoints
      let n := allAddresses.length
      match extractMatrix resp n with
      | Except.error e => Except.error e
      | Except.ok mat =>
        let distances := fun i j => ((mat.getD i []).getD j ((0 : ℕ∞), (0 : ℕ∞))).1
        let durations := fun i j => ((mat.getD i []).getD j ((0 : ℕ∞), (0 : ℕ∞))).2
        match solveTsp distances n with
        | none => Except.error msgNoneOrder
        | some optimalOrder =>
          match buildSteps allAddresses optimalOrder with
          | Except.error e => Except.error e
          | Except.ok steps =>
            Except.ok
              { error := none
                route := steps
                total_distance := roundKm (loopTotal distances optimalOrder)
                total_duration := roundMin (loopTotal durations optimalOrder)
                google_maps_url := generate_google_maps_url allAddresses optimalOrder }

/-- `optimize_route(addresses, home_index)` with the matrix response as an
explicit input: the surrounding `try/except` turns every exception into the
failure dict. -/
def optimize_route (addresses : List Waypoint) (homeIndex : ℕ)
    (resp : MatrixResp) : OptResult :=
  match optimize_route_body addresses homeIndex resp with
  | Except.ok r => r
  | Except.error e => errResult (msgFailPrefix ++ e)

/-- The payload stored under a route code (`route_data` in `app.py`). -/
structure RouteData where
  route : List Step
  total_distance : ℕ∞
  total_duration : ℕ∞
  google_maps_url : List Char
deriving DecidableEq

/-- A stored record: the payload plus its expiry instant (hours). -/
structure StoredEntry where
  data : RouteData
  expires_at : ℕ
deriving DecidableEq

/-- The in-memory store `_in_memory_storage`: a key-value dict from route
code to stored entry. -/
abbrev Store := List (ℕ × StoredEntry)

/-- Dict lookup `storage.get(code)`. -/
def lookupKey (code : ℕ) : Store → Option StoredEntry
  | [] => none
  | (k, e) :: s => if k = code then some e else lookupKey code s

/-- Dict deletion `del storage[code]` (keys are unique). -/
def eraseKey (code : ℕ) (s : Store) : Store := s.filter fun kv => kv.1 != code

/-- Dict assignment `storage[code] = e`. -/
def insertKey (code : ℕ) (e : StoredEntry) : Store → Store
  | [] => [(code, e)]
  | (k, e') :: s => if k = code then (code, e) :: s else (k, e') :: insertKey code e s

/-- `self.expiration_hours = 24`; time is measured in hours. -/
def expiration_hours : ℕ := 24

/-- `store_route(route_code, route_data)` (in-memory branch): write the
payload with `expires_at = now + 24h` and report success. -/
def store_route (s : Store) (now : ℕ) (code : ℕ) (data : RouteData) :
    Store × Bool :=
  (insertKey code ⟨data, now + expiration_hours⟩ s, true)

/-- `get_route(route_code)` (in-memory branch): absent code gives `None`;
an expired hit is deleted and gives `None`; otherwise the payload fields are
returned. -/
def get_route (s : Store) (now : ℕ) (code : ℕ) : Store × Option RouteData :=
  match lookupKey code s with
  | none => (s, none)
  | some e => if e.expires_at < now then (eraseKey code s, none) else (s, some e.data)

/-- Result of a sweep: final store, `(deleted_count, error_count)`, and the
number of batch commits attempted. -/
structure SweepRes where
  store : Store
  deleted : ℕ
  errors : ℕ
  commits : ℕ

/-- `max_batch_size = 500  # Firestore batch limit`. -/
def max_batch_size : ℕ := 500

/-- The net effect of committing a batch of staged deletions. -/
def removeAll (codes : List ℕ) (s : Store) : Store :=
  codes.foldl (fun st c => eraseKey c st) s

/-- The streaming loop of `cleanup_expired_routes` (Firestore branch):
stage each expired doc into the current batch, commit whenever the batch
reaches `max_batch_size`, commit the final partial batch; a failed commit
adds the batch size to the error count, leaves the staged docs in place and
continues.  `ok i` tells whether the `i`-th commit succeeds. -/
def sweepAux (ok : ℕ → Bool) :
    List ℕ → Store → List ℕ → ℕ → ℕ → ℕ → ℕ → SweepRes
  | [], s, batch, bc, d, e, i =>
    if 0 < bc then
      if ok i then ⟨removeAll batch s, d + bc, e, i + 1⟩ else ⟨s, d, e + bc, i + 1⟩
    else ⟨s, d, e, i⟩
  | doc :: docs, s, batch, bc, d, e, i =>
    let batch' := batch ++ [doc]
    let bc' := bc + 1
    if max_batch_size ≤ bc' then
      if ok i then sweepAux ok docs (removeAll batch' s) [] 0 (d + bc') e (i + 1)
      else sweepAux ok docs s [] 0 d (e + bc') (i + 1)
    else sweepAux ok docs s batch' bc' d e i

/-- The query `routes_ref.where('expires_at', '<', now).stream()`. -/
def expiredCodes (s : Store) (now : ℕ) : List ℕ :=
  (s.filter fun kv => decide (kv.2.expires_at < now)).map fun kv => kv.1

/-- `cleanup_expired_routes()` (Firestore branch), parametrised by the
commit outcomes. -/
def cleanup_expired_routes (s : Store) (now : ℕ) (ok : ℕ → Bool) : SweepRes :=
  sweepAux ok (expiredCodes s now) s [] 0 0 0 0

/-- Fuelled chunking of a list into pieces of size `n` (specification side);
`chunksOf` instantiates the fuel with the length. -/
def chunksAux (n : ℕ) : ℕ → List ℕ → List (List ℕ)
  | 0, _ => []
  | fuel + 1, l => if l.isEmpty then [] else l.take n :: chunksAux n fuel (l.drop n)

/-- The discovered batches: the expired docs in chunks of `n`. -/
def chunksOf (n : ℕ) (l : List ℕ) : List (List ℕ) := chunksAux n l.length l

/-- Specification-side sweep: commit the discovered batches one after the
other, each independently. -/
def sweepChunks (ok : ℕ → Bool) : List (List ℕ) → Store → ℕ → ℕ → ℕ → SweepRes
  | [], s, d, e, i => ⟨s, d, e, i⟩
  | c :: cs, s, d, e, i =>
    if ok i then sweepChunks ok cs (removeAll c s) (d + c.length) e (i + 1)
    else sweepChunks ok cs s d (e + c.length) (i + 1)

/-- Total size of the chunks whose commit outcome (starting at commit index
`i`) equals `want`. -/
def sumIf (ok : ℕ → Bool) (want : Bool) : ℕ → List (List ℕ) → ℕ
  | _, [] => 0
  | i, c :: cs => (if ok i = want then c.length else 0) + sumIf ok want (i + 1) cs

/-- Concatenation of the chunks whose commit succeeds. -/
def okFlat (ok : ℕ → Bool) : ℕ → List (List ℕ) → List ℕ
  | _, [] => []
  | i, c :: cs => (if ok i then c else []) ++ okFlat ok (i + 1) cs

/-- The symmetric Home/A/B cost matrix of the specification's concrete
scenario: Home-A = 10, Home-B = 15, A-B = 5. -/
def demoMatrix : ℕ → ℕ → ℕ∞ := fun i j =>
  (([[0, 10, 15], [10, 0, 5], [15, 5, 0]].getD i []).getD j 0 : ℕ∞)

/-- A concrete store with 1200 expired entries (codes `0..1199`, expiry 0)
and 50 live entries (codes `1200..1249`, expiry 200), read at time 100. -/
def c4Store : Store :=
  (List.range 1250).map fun i => (i, ⟨⟨[], 0, 0, []⟩, if i < 1200 then 0 else 200⟩)

/-- A concrete address (UTF-8 bytes of a street address with spaces and a
comma) used as a witness input. -/
def demoAddr : Waypoint := ⟨("12 Main St, NY").toList.map Char.toNat, []⟩

theorem perm_getD_cons_eraseIdx :
    ∀ (l : List ℕ) (i : ℕ), i < l.length → l.Perm (l.getD i 0 :: l.eraseIdx i) := by
  intro l
  induction l with
  | nil => intro i h; simp at h
  | cons a t ih =>
    intro i h
    cases i with
    | zero => exact List.Perm.refl _
    | succ i =>
      have h' : i < t.length := by simpa using h
      show (a :: t).Perm (t.getD i 0 :: a :: t.eraseIdx i)
      exact ((ih i h').cons a).trans (List.Perm.swap (t.getD i 0) a (t.eraseIdx i))

theorem permsAux_sound :
    ∀ (fuel : ℕ) (l p : List ℕ), l.length = fuel → p ∈ permsAux fuel l → p.Perm l := by
  intro fuel
  induction fuel with
  | zero =>
    intro l p hl hp
    have hnil : l = [] := List.eq_nil_of_length_eq_zero hl
    subst hnil
    simp only [permsAux, List.mem_singleton] at hp
    subst hp
    exact List.Perm.refl _
  | succ fuel ih =>
    intro l p hl hp
    simp only [permsAux, List.mem_flatMap, List.mem_map, List.mem_range] at hp
    obtain ⟨i, hi, q, hq, rfl⟩ := hp
    have hlen : (l.eraseIdx i).length = fuel := by
      rw [List.length_eraseIdx, if_pos hi]
      omega
    exact ((ih _ _ hlen hq).cons _).trans (perm_getD_cons_eraseIdx l i hi).symm

theorem permsAux_complete :
    ∀ (fuel : ℕ) (l q : List ℕ), l.length = fuel → q.Perm l → q ∈ permsAux fuel l := by
  intro fuel
  induction fuel with
  | zero =>
    intro l q hl hq
    have hnil : l = [] := List.eq_nil_of_length_eq_zero hl
    subst hnil
    have : q = [] := hq.eq_nil
    subst this
    simp [permsAux]
  | succ fuel ih =>
    intro l q hl hq
    cases q with
    | nil =>
      have : l = [] := hq.symm.eq_nil
      subst this
      simp at hl
    | cons x q' =>
      have hx : x ∈ l := hq.subset (List.mem_cons_self x q')
      have hi : l.indexOf x < l.length := List.indexOf_lt_length.2 hx
      have hgetD : l.getD (l.indexOf x) 0 = x := by
        rw [List.getD_eq_getElem l 0 hi]
        exact List.getElem_indexOf hi
      have hperm : l.Perm (x :: l.eraseIdx (l.indexOf x)) := by
        have := perm_getD_cons_eraseIdx l (l.indexOf x) hi
        rwa [hgetD] at this
      have hq' : q'.Perm (l.eraseIdx (l.indexOf x)) := (hq.trans hperm).cons_inv
      have hlen : (l.eraseIdx (l.indexOf x)).length = fuel := by
        rw [List.length_eraseIdx, if_pos hi]
        omega
      simp only [permsAux, List.mem_flatMap, List.mem_map, List.mem_range]
      exact ⟨l.indexOf x, hi, q', ih _ _ hlen hq', by rw [hgetD]⟩

theorem perms_sound {l p : List ℕ} (hp : p ∈ perms l) : p.Perm l :=
  permsAux_sound l.length l p rfl hp

theorem perms_complete {l q : List ℕ} (hq : q.Perm l) : q ∈ perms l :=
  permsAux_complete l.length l q rfl hq

theorem foldrMin_le {c : ℕ∞} : ∀ {cs : List ℕ∞}, c ∈ cs → cs.foldr min ⊤ ≤ c := by
  intro cs
  induction cs with
  | nil => intro h; simp at h
  | cons a t ih =>
    intro h
    rcases List.mem_cons.1 h with h | h
    · subst h; exact min_le_left _ _
    · exact (min_le_right _ _).trans (ih h)

theorem minPermCost_le (d : ℕ → ℕ → ℕ∞) (start : ℕ) (ws : List ℕ) {q : List ℕ}
    (hq : q ∈ perms ws) :
    minPermCost d start ws ≤ tourCost d (start :: q ++ [start]) :=
  foldrMin_le (List.mem_map_of_mem _ hq)

theorem bfFoldSpec (d : ℕ → ℕ → ℕ∞) (start : ℕ) :
    ∀ (L : List (List ℕ)) (c0 : ℕ∞) (b0 : Option (List ℕ)),
      L.foldl
        (fun acc perm =>
          let order := start :: perm ++ [start]
          let dist := tourCost d order
          if dist < acc.1 then (dist, some order) else acc)
        (c0, b0)
      = (min c0 ((L.map fun p => tourCost d (start :: p ++ [start])).foldr min ⊤),
         if (L.map fun p => tourCost d (start :: p ++ [start])).foldr min ⊤ < c0 then
           (L.find? fun p =>
              decide (tourCost d (start :: p ++ [start]) =
                (L.map fun q => tourCost d (start :: q ++ [start])).foldr min ⊤)).map
             (fun p => start :: p ++ [start])
         else b0) := by
  intro L
  induction L with
  | nil =>
    intro c0 b0
    simp
  | cons p L ih =>
    intro c0 b0
    rw [List.foldl_cons]
    have hcons :
        ((p :: L).map fun p => tourCost d (start :: p ++ [start])).foldr min ⊤
          = min (tourCost d (start :: p ++ [start]))
              ((L.map fun p => tourCost d (start :: p ++ [start])).foldr min ⊤) := by
      simp
    dsimp only
    by_cases hlt : tourCost d (start :: p ++ [start]) < c0
    · rw [if_pos hlt]
      rw [ih]
      rw [hcons]
      by_cases hm :
          ((L.map fun p => tourCost d (start :: p ++ [start])).foldr min ⊤)
            < tourCost d (start :: p ++ [start])
      · rw [min_eq_right hm.le]
        rw [if_pos hm, if_pos (hm.trans hlt)]
        rw [min_eq_right (hm.trans hlt).le]
        rw [List.find?_cons_of_neg _ (by simp; exact ne_of_gt hm)]
      · have hle := not_lt.1 hm
        rw [min_eq_left hle]
        rw [if_neg hm, if_pos hlt]
        rw [min_eq_right hlt.le]
        rw [List.find?_cons_of_pos _ (by simp)]
        simp
    · rw [if_neg hlt]
      rw [ih]
      rw [hcons]
      have hc0 := not_lt.1 hlt
      have hfst :
          min c0
            (min (tourCost d (start :: p ++ [start]))
              ((L.map fun p => tourCost d (start :: p ++ [start])).foldr min ⊤))
          = min c0 ((L.map fun p => tourCost d (start :: p ++ [start])).foldr min ⊤) := by
        rw [← min_assoc, min_eq_left hc0]
      rw [hfst]
      by_cases hm : ((L.map fun p => tourCost d (start :: p ++ [start])).foldr min ⊤) < c0
      · have hmcp : ((L.map fun p => tourCost d (start :: p ++ [start])).foldr min ⊤)
            < tourCost d (start :: p ++ [start]) := hm.trans_le hc0
        rw [min_eq_right hmcp.le]
        rw [if_pos hm, if_pos hm]
        rw [List.find?_cons_of_neg _ (by simp; exact ne_of_gt hmcp)]
      · have hnot :
            ¬ min (tourCost d (start :: p ++ [start]))
                ((L.map fun p => tourCost d (start :: p ++ [start])).foldr min ⊤) < c0 := by
          rw [min_lt_iff]
          push_neg
          exact ⟨hc0, not_lt.1 hm⟩
        rw [if_neg hm, if_neg hnot]

theorem brute_force_tsp_eq (d : ℕ → ℕ → ℕ∞) (start : ℕ) (ws : List ℕ)
    (hws : ws ≠ []) :
    brute_force_tsp d start ws =
      if minPermCost d start ws < ⊤ then firstMinimalTour d start ws else none := by
  unfold brute_force_tsp
  rw [if_neg (by simpa [List.isEmpty_iff] using hws)]
  rw [bfFoldSpec]
  by_cases hm : minPermCost d start ws < ⊤
  · rw [if_pos hm]
    have : ((perms ws).map fun p => tourCost d (start :: p ++ [start])).foldr min ⊤
        = minPermCost d start ws := rfl
    rw [this, if_pos hm]
    rfl
  · rw [if_neg hm]
    have : ((perms ws).map fun p => tourCost d (start :: p ++ [start])).foldr min ⊤
        = minPermCost d start ws := rfl
    rw [this, if_neg hm]

/-- Claim C1: for every distance matrix and waypoint count `2 ≤ k ≤ 8`, any
order the exact solver `_brute_force_tsp` returns has closed-tour cost at
most the cost of every permutation of the non-home indices, and it is the
closed tour of the first permutation in `itertools.permutations` generation
order that attains the minimum cost. -/
theorem claim1_exact_solver_minimal (d : ℕ → ℕ → ℕ∞) (ws : List ℕ)
    (h2 : 2 ≤ ws.length) (h8 : ws.length ≤ 8) (order : List ℕ)
    (h : brute_force_tsp d 0 ws = some order) :
    (∀ q : List ℕ, q.Perm ws → tourCost d order ≤ tourCost d (0 :: q ++ [0])) ∧
    ∃ p, (perms ws).find?
        (fun p => decide (tourCost d (0 :: p ++ [0]) = minPermCost d 0 ws)) = some p ∧
      order = 0 :: p ++ [0] := by
  have hws : ws ≠ [] := by
    intro he
    subst he
    simp at h2
  rw [brute_force_tsp_eq d 0 ws hws] at h
  by_cases hm : minPermCost d 0 ws < ⊤
  · rw [if_pos hm] at h
    unfold firstMinimalTour at h
    obtain ⟨p, hfind, horder⟩ := Option.map_eq_some'.1 h
    refine ⟨?_, p, hfind, horder.symm⟩
    intro q hq
    have hq' : q ∈ perms ws := perms_complete hq
    have hpred := List.find?_some hfind
    simp only [decide_eq_true_eq] at hpred
    have hcost : tourCost d order = minPermCost d 0 ws := by
      rw [← horder]
      exact hpred
    rw [hcost]
    exact minPermCost_le d 0 ws hq'
  · rw [if_neg hm] at h
    exact absurd h (by simp)

/-- Witness for C1: the specification's concrete Home/A/B scenario, where
the exact solver returns the first-generated of the two cost-30 tours. -/
theorem claim1_witness :
    (∀ q : List ℕ, q.Perm [1, 2] →
      tourCost demoMatrix [0, 1, 2, 0] ≤ tourCost demoMatrix (0 :: q ++ [0])) ∧
    ∃ p, (perms [1, 2]).find?
        (fun p => decide (tourCost demoMatrix (0 :: p ++ [0]) = minPermCost demoMatrix 0 [1, 2]))
          = some p ∧
      [0, 1, 2, 0] = 0 :: p ++ [0] :=
  claim1_exact_solver_minimal demoMatrix [1, 2] (by decide) (by decide) [0, 1, 2, 0]
    (by decide)

theorem pyFoldMin_mem (key : ℕ → ℕ∞) :
    ∀ (xs : List ℕ) (x : ℕ),
      xs.foldl (fun best y => if key y < key best then y else best) x ∈ x :: xs := by
  intro xs
  induction xs with
  | nil => intro x; simp
  | cons z rest ih =>
    intro x
    rw [List.foldl_cons]
    by_cases h : key z < key x
    · rw [if_pos h]
      have := ih z
      simp only [List.mem_cons] at this ⊢
      tauto
    · rw [if_neg h]
      have := ih x
      simp only [List.mem_cons] at this ⊢
      tauto

theorem pyFoldMin_sorted_spec (key : ℕ → ℕ∞) :
    ∀ (xs : List ℕ) (x : ℕ), List.Sorted (· ≤ ·) (x :: xs) →
      (∀ y ∈ x :: xs,
        key (xs.foldl (fun best y => if key y < key best then y else best) x) ≤ key y) ∧
      (∀ y ∈ x :: xs,
        key y = key (xs.foldl (fun best y => if key y < key best then y else best) x) →
          xs.foldl (fun best y => if key y < key best then y else best) x ≤ y) := by
  intro xs
  induction xs with
  | nil =>
    intro x _
    constructor <;> intro y hy <;> simp only [List.mem_cons, List.not_mem_nil, or_false] at hy
    · subst hy; simp
    · intro _; subst hy; simp
  | cons z rest ih =>
    intro x hs
    rw [List.sorted_cons] at hs
    obtain ⟨hx_all, hs2⟩ := hs
    have hxz : x ≤ z := hx_all z (List.mem_cons_self z rest)
    rw [List.foldl_cons]
    by_cases h : key z < key x
    · rw [if_pos h]
      obtain ⟨hle, hties⟩ := ih z hs2
      constructor
      · intro y hy
        rcases List.mem_cons.1 hy with rfl | hy
        · exact (hle z (List.mem_cons_self z rest)).trans h.le
        · exact hle y hy
      · intro y hy hkey
        rcases List.mem_cons.1 hy with rfl | hy
        · exfalso
          have hlt := (hle z (List.mem_cons_self z rest)).trans_lt h
          rw [hkey] at hlt
          exact lt_irrefl _ hlt
        · exact hties y hy hkey
    · rw [if_neg h]
      have hxk := not_lt.1 h
      have hs3 : List.Sorted (· ≤ ·) (x :: rest) := by
        rw [List.sorted_cons]
        rw [List.sorted_cons] at hs2
        exact ⟨fun b hb => hx_all b (List.mem_cons_of_mem z hb), hs2.2⟩
      obtain ⟨hle, hties⟩ := ih x hs3
      constructor
      · intro y hy
        rcases List.mem_cons.1 hy with rfl | hy
        · exact hle y (List.mem_cons_self ..)
        rcases List.mem_cons.1 hy with rfl | hy
        · exact (hle x (List.mem_cons_self ..)).trans hxk
        · exact hle y (List.mem_cons_of_mem x hy)
      · intro y hy hkey
        rcases List.mem_cons.1 hy with rfl | hy
        · exact hties y (List.mem_cons_self ..) hkey
        rcases List.mem_cons.1 hy with rfl | hy
        · have h1 := hle x (List.mem_cons_self ..)
          have hxm : key x =
              key (rest.foldl (fun best y => if key y < key best then y else best) x) :=
            le_antisymm (hxk.trans (le_of_eq hkey)) h1
          exact (hties x (List.mem_cons_self ..) hxm).trans hxz
        · exact hties y (List.mem_cons_of_mem x hy) hkey

theorem pyMinBy_mem {key : ℕ → ℕ∞} {l : List ℕ} {m : ℕ}
    (h : pyMinBy key l = some m) : m ∈ l := by
  cases l with
  | nil => simp [pyMinBy] at h
  | cons x xs =>
    simp only [pyMinBy, Option.some.injEq] at h
    subst h
    exact pyFoldMin_mem key xs x

theorem pyMinBy_sorted_spec (key : ℕ → ℕ∞) (l : List ℕ) (hne : l ≠ [])
    (hs : List.Sorted (· ≤ ·) l) :
    ∃ m, pyMinBy key l = some m ∧ m ∈ l ∧ (∀ y ∈ l, key m ≤ key y) ∧
      ∀ y ∈ l, key y = key m → m ≤ y := by
  cases l with
  | nil => exact absurd rfl hne
  | cons x xs =>
    obtain ⟨h2, h3⟩ := pyFoldMin_sorted_spec key xs x hs
    exact ⟨_, rfl, pyFoldMin_mem key xs x, h2, h3⟩

theorem nnAux_perm (d : ℕ → ℕ → ℕ∞) :
    ∀ (fuel : ℕ) (l : List ℕ) (current : ℕ), l.length ≤ fuel →
      (nnAux d fuel current l).Perm l := by
  intro fuel
  induction fuel with
  | zero =>
    intro l current h
    have : l = [] := List.eq_nil_of_length_eq_zero (Nat.le_zero.1 h)
    subst this
    simp [nnAux]
  | succ fuel ih =>
    intro l current h
    cases hm : pyMinBy (fun x => d current x) l with
    | none =>
      cases l with
      | nil => simp [nnAux, hm]
      | cons x xs => simp [pyMinBy] at hm
    | some m =>
      have hmem : m ∈ l := pyMinBy_mem hm
      have herase : (l.erase m).length ≤ fuel := by
        rw [List.length_erase_of_mem hmem]
        have : 1 ≤ l.length := List.length_pos.2 (List.ne_nil_of_mem hmem)
        omega
      simp only [nnAux, hm]
      exact ((ih _ m herase).cons m).trans (List.perm_cons_erase hmem).symm

theorem pySet_perm {l : List ℕ} (hl : l.Nodup) : (pySet l).Perm l := by
  rw [pySet, List.Nodup.dedup hl]
  exact List.perm_insertionSort _ l

theorem closedTourShape (mid : List ℕ) (k : ℕ) (ws : List ℕ) (hperm : mid.Perm ws)
    (hlen : ws.length = k) :
    (0 :: mid ++ [0]).length = k + 2 ∧ (0 :: mid ++ [0]).head? = some 0 ∧
    (0 :: mid ++ [0]).getLast? = some 0 ∧
    (((0 :: mid ++ [0]).drop 1).dropLast).Perm ws := by
  refine ⟨?_, rfl, ?_, ?_⟩
  · simp [hperm.length_eq, hlen]
  · show ((0 :: mid) ++ [0]).getLast? = some 0
    exact List.getLast?_concat _
  · show ((mid ++ [0]).dropLast).Perm ws
    rw [List.dropLast_concat]
    exact hperm

/-- Counterexample to claim C2 as stated: with `k = 2` waypoints and a
matrix in which every pair is unreachable, `solve` returns no order at all
(the exact solver's `best_order` stays `None`), so no order of length `k+2`
with the claimed shape is produced. -/
theorem claim2_counterexample : solveTsp (fun _ _ => (⊤ : ℕ∞)) 3 = none := by decide

/-- Claim C2, amended: whenever `solve` returns an order — which it does
except when `2 ≤ k ≤ 8` and every closed tour has the unreachable sentinel
cost — the order has length `k+2`, its first and last elements are the home
index `0`, and its interior is a permutation of the non-home indices
`1 .. k`. -/
theorem claim2_solve_shape (d : ℕ → ℕ → ℕ∞) (n : ℕ) (hn : 2 ≤ n)
    (order : List ℕ) (h : solveTsp d n = some order) :
    order.length = (n - 1) + 2 ∧ order.head? = some 0 ∧
    order.getLast? = some 0 ∧
    ((order.drop 1).dropLast).Perm (List.range' 1 (n - 1)) := by
  have hlen : (List.range' 1 (n - 1)).length = n - 1 := List.length_range' ..
  have hwsne : List.range' 1 (n - 1) ≠ [] := by
    intro he
    rw [he] at hlen
    simp at hlen
    omega
  simp only [solveTsp] at h
  split_ifs at h with h1 h8
  · have := Option.some.inj h
    subst this
    exact closedTourShape _ _ _ (List.Perm.refl _) hlen
  · have := Option.some.inj h
    subst this
    rw [nearest_neighbor_tsp, if_neg (by simpa [List.isEmpty_iff] using hwsne)]
    have hperm : (nnAux d (pySet (List.range' 1 (n - 1))).length 0
        (pySet (List.range' 1 (n - 1)))).Perm (List.range' 1 (n - 1)) :=
      (nnAux_perm d _ _ 0 le_rfl).trans (pySet_perm (List.nodup_range' ..))
    exact closedTourShape _ _ _ hperm hlen
  · rw [brute_force_tsp_eq d 0 _ hwsne] at h
    by_cases hm : minPermCost d 0 (List.range' 1 (n - 1)) < ⊤
    · rw [if_pos hm] at h
      unfold firstMinimalTour at h
      obtain ⟨p, hfind, horder⟩ := Option.map_eq_some'.1 h
      have hp : p ∈ perms (List.range' 1 (n - 1)) := List.mem_of_find?_eq_some hfind
      rw [← horder]
      exact closedTourShape _ _ _ (perms_sound hp) hlen
    · rw [if_neg hm] at h
      exact absurd h (by simp)

/-- Witness for the amended C2 at the concrete Home/A/B scenario. -/
theorem claim2_witness :
    [0, 1, 2, 0].length = (3 - 1) + 2 ∧ ([0, 1, 2, 0] : List ℕ).head? = some 0 ∧
    ([0, 1, 2, 0] : List ℕ).getLast? = some 0 ∧
    ((([0, 1, 2, 0] : List ℕ).drop 1).dropLast).Perm (List.range' 1 (3 - 1)) :=
  claim2_solve_shape demoMatrix 3 (by decide) [0, 1, 2, 0] (by decide)

/-- Claim C5 is contradicted by the code: with every pair unreachable, every
closed tour costs `inf`, `distance < min_distance` never fires (`inf < inf`
is false), and `_brute_force_tsp` returns its `None` failure value instead
of a valid order — the `None` branch is reachable.  Evaluation of the solver
at the failing input. -/
theorem claim5_failing_input :
    brute_force_tsp (fun _ _ => (⊤ : ℕ∞)) 0 [1, 2] = none := by decide

/-- Claim C6: at any state of the nearest-neighbor heuristic (current
position and ascending set of unvisited waypoints, as CPython iterates it),
`min` deterministically returns exactly one waypoint: one of minimal cost,
and the lowest-indexed among the tied minima — also when every remaining
waypoint is unreachable (all keys `⊤` tie) — and the loop continues with it
rather than aborting. -/
theorem claim6_tie_break (d : ℕ → ℕ → ℕ∞) (fuel current : ℕ) (l : List ℕ)
    (hne : l ≠ []) (hs : List.Sorted (· ≤ ·) l) :
    ∃ m, pyMinBy (fun x => d current x) l = some m ∧ m ∈ l ∧
      (∀ y ∈ l, d current m ≤ d current y) ∧
      (∀ y ∈ l, d current y = d current m → m ≤ y) ∧
      nnAux d (fuel + 1) current l = m :: nnAux d fuel m (l.erase m) := by
  obtain ⟨m, hm, hmem, hle, hties⟩ := pyMinBy_sorted_spec (fun x => d current x) l hne hs
  exact ⟨m, hm, hmem, hle, hties, by simp only [nnAux, hm]⟩

/-- Witness for C6: two unvisited waypoints, both unreachable from the
current position; the heuristic picks waypoint 1, the lowest index. -/
theorem claim6_witness :
    ∃ m, pyMinBy (fun x => (fun _ _ => (⊤ : ℕ∞)) 0 x) [1, 2] = some m ∧ m ∈ [1, 2] ∧
      (∀ y ∈ [1, 2], (fun _ _ => (⊤ : ℕ∞)) 0 m ≤ (fun _ _ => (⊤ : ℕ∞)) 0 y) ∧
      (∀ y ∈ [1, 2], (fun _ _ => (⊤ : ℕ∞)) 0 y = (fun _ _ => (⊤ : ℕ∞)) 0 m → m ≤ y) ∧
      nnAux (fun _ _ => (⊤ : ℕ∞)) (1 + 1) 0 [1, 2]
        = m :: nnAux (fun _ _ => (⊤ : ℕ∞)) 1 m ([1, 2].erase m) :=
  claim6_tie_break (fun _ _ => (⊤ : ℕ∞)) 1 0 [1, 2] (by decide) (by decide)

theorem loopTotal_enumFrom (m : ℕ → ℕ → ℕ∞) (order : List ℕ) :
    ∀ (suf : List ℕ) (p : ℕ) (acc : ℕ∞), order.drop p = suf →
      (List.enumFrom p suf).foldl
        (fun acc q =>
          if q.1 < order.length - 1 then acc + m q.2 (order.getD (q.1 + 1) 0) else acc)
        acc
      = acc + sumLegs m suf := by
  intro suf
  induction suf with
  | nil => intro p acc _; simp [sumLegs]
  | cons x rest ih =>
    intro p acc hdrop
    have hlendrop : order.length - p = rest.length + 1 := by
      have := List.length_drop p order
      rw [hdrop] at this
      simp at this
      omega
    have hdrop' : order.drop (p + 1) = rest := by
      have h1 : (order.drop p).drop 1 = order.drop (p + 1) := List.drop_drop ..
      rw [hdrop] at h1
      simpa using h1.symm
    show (List.enumFrom (p + 1) rest).foldl _
        (if p < order.length - 1 then acc + m x (order.getD (p + 1) 0) else acc)
      = acc + sumLegs m (x :: rest)
    cases rest with
    | nil =>
      simp only [List.length_nil] at hlendrop
      have hplast : ¬ p < order.length - 1 := by omega
      rw [if_neg hplast]
      simp [sumLegs]
    | cons y rest' =>
      simp only [List.length_cons] at hlendrop
      have hp : p < order.length - 1 := by omega
      have hgetD : order.getD (p + 1) 0 = y := by
        have h0 : (order.drop (p + 1))[0]? = order[p + 1 + 0]? := List.getElem?_drop ..
        rw [hdrop'] at h0
        simp at h0
        rw [List.getD_eq_getElem?_getD, ← h0]
        rfl
      rw [if_pos hp, hgetD]
      rw [ih (p + 1) (acc + m x y) hdrop']
      have hsum : sumLegs m (x :: y :: rest') = m x y + sumLegs m (y :: rest') := by
        simp [sumLegs]
      rw [hsum, add_assoc]

theorem loopTotal_eq_sumLegs (m : ℕ → ℕ → ℕ∞) (order : List ℕ) :
    loopTotal m order = sumLegs m order := by
  have := loopTotal_enumFrom m order order 0 0 rfl
  simpa [loopTotal, List.enum] using this

/-- Claim C7: for every route order and matrix, the assembled totals equal
the sum of the consecutive-leg matrix values along the order, converted
(meters to hundredths of km, seconds to tenths of minutes) and rounded
exactly once on the final aggregate; and rounding is not applied per leg —
on two 4-meter legs the per-leg variant gives 0.00 km while the code gives
0.01 km. -/
theorem claim7_totals_round_once :
    (∀ (m : ℕ → ℕ → ℕ∞) (order : List ℕ),
      roundKm (loopTotal m order) = specTotalDistanceKm m order ∧
      roundMin (loopTotal m order) = specTotalDurationMin m order) ∧
    roundKm (loopTotal
        (fun i j => if i = 0 ∧ j = 1 then (4 : ℕ∞) else if i = 1 ∧ j = 2 then 4 else 0)
        [0, 1, 2])
      ≠ perLegRoundedKm
        (fun i j => if i = 0 ∧ j = 1 then (4 : ℕ∞) else if i = 1 ∧ j = 2 then 4 else 0)
        [0, 1, 2] := by
  constructor
  · intro m order
    constructor
    · rw [roundKm, loopTotal_eq_sumLegs, specTotalDistanceKm]
    · rw [roundMin, loopTotal_eq_sumLegs, specTotalDurationMin]
  · decide

theorem foldl_pushMap (g : ℕ → List Char) :
    ∀ (order : List ℕ) (acc : List (List Char)),
      order.foldl (fun acc idx => acc ++ [g idx]) acc = acc ++ order.map g := by
  intro order
  induction order with
  | nil => intro acc; simp
  | cons x t ih =>
    intro acc
    rw [List.foldl_cons, ih]
    simp

theorem quotePlusByte_safe :
    ∀ b, b < 256 → ((quotePlusByte b).all outputSafeChar) = true := by decide

theorem quotePlus_safe (a : List ℕ) (hb : ∀ b ∈ a, b < 256) :
    ∀ c ∈ quotePlus a, outputSafeChar c = true := by
  induction a with
  | nil => intro c hc; simp [quotePlus] at hc
  | cons b bs ih =>
    intro c hc
    simp only [quotePlus] at hc
    rcases List.mem_append.1 hc with h | h
    · exact List.all_eq_true.1 (quotePlusByte_safe b (hb b (List.mem_cons_self ..))) c h
    · exact ih (fun x hx => hb x (List.mem_cons_of_mem _ hx)) c h

theorem safe_not_reserved (c : Char) (h : outputSafeChar c = true) :
    c ∉ reservedUrlChars := by
  intro hc
  simp only [reservedUrlChars, List.mem_cons, List.not_mem_nil, or_false] at hc
  rcases hc with rfl | rfl | rfl | rfl | rfl | rfl | rfl | rfl | rfl | rfl <;>
    revert h <;> decide

/-- Claim C9: the shareable link is the fixed base URL prefix followed by
the percent-encoded addresses in visiting order joined with `/`; and the
encoding emits only unreserved characters, `+` (for an encoded space) and
`%`-escapes, so no reserved URL character of an address (space, comma,
slash, delimiter) appears unescaped. -/
theorem claim9_url (addresses : List Waypoint) (order : List ℕ) :
    generate_google_maps_url addresses order
      = baseUrlChars ++ List.intercalate (['/'])
          (order.map fun idx => quotePlus ((addresses.getD idx ⟨[], []⟩).address)) ∧
    ∀ a : List ℕ, (∀ b ∈ a, b < 256) →
      ∀ c ∈ quotePlus a, outputSafeChar c = true ∧ c ∉ reservedUrlChars := by
  constructor
  · rw [generate_google_maps_url]
    rw [foldl_pushMap]
    simp
  · intro a hb c hc
    have h := quotePlus_safe a hb c hc
    exact ⟨h, safe_not_reserved c h⟩

/-- Witness for C9 at a concrete address containing spaces and a comma:
the URL equation instantiated, and the `+` emitted for the encoded space is
itself outside the reserved set. -/
theorem claim9_witness :
    generate_google_maps_url [demoAddr] [0, 0]
      = baseUrlChars ++ List.intercalate (['/'])
          ([0, 0].map fun idx => quotePlus (([demoAddr].getD idx ⟨[], []⟩).address)) ∧
    (outputSafeChar '+' = true ∧ '+' ∉ reservedUrlChars) := by
  have h := claim9_url [demoAddr] [0, 0]
  exact ⟨h.1, h.2 (demoAddr.address) (by decide) '+' (by decide)⟩

theorem lookupKey_insertKey_self (code : ℕ) (e : StoredEntry) :
    ∀ s : Store, lookupKey code (insertKey code e s) = some e := by
  intro s
  induction s with
  | nil => simp [insertKey, lookupKey]
  | cons kv t ih =>
    obtain ⟨k, e'⟩ := kv
    by_cases h : k = code
    · simp [insertKey, h, lookupKey]
    · simp [insertKey, h, lookupKey, ih]

theorem lookupKey_eraseKey_self (code : ℕ) :
    ∀ s : Store, lookupKey code (eraseKey code s) = none := by
  intro s
  induction s with
  | nil => simp [eraseKey, lookupKey]
  | cons kv t ih =>
    obtain ⟨k, e'⟩ := kv
    by_cases h : k = code
    · simpa [eraseKey, h] using ih
    · simp only [eraseKey, List.filter] at ih ⊢
      rw [show ((k, e').1 != code) = true by simpa using h]
      simpa [lookupKey, h] using ih

/-- Claim C3: `put(code, X)` immediately followed by `get(code)` returns
`X` unchanged and leaves the store as written; once the 24-hour TTL has
elapsed, `get(code)` reports absent, deletes the entry as a side effect,
and the resulting observations (absent result, no entry under the code,
and any `get` on a store without the code returning absent and leaving the
store unchanged) are identical to those for a code that never existed. -/
theorem claim3_put_get_ttl (s : Store) (t tNow : ℕ) (code : ℕ) (X : RouteData) :
    get_route ((store_route s t code X).1) t code
        = ((store_route s t code X).1, some X) ∧
    (t + expiration_hours < tNow →
      get_route ((store_route s t code X).1) tNow code
          = (eraseKey code ((store_route s t code X).1), none) ∧
      lookupKey code (eraseKey code ((store_route s t code X).1)) = none ∧
      ∀ s0 : Store, lookupKey code s0 = none → get_route s0 tNow code = (s0, none)) := by
  have hlook : lookupKey code ((store_route s t code X).1)
      = some ⟨X, t + expiration_hours⟩ := lookupKey_insertKey_self ..
  constructor
  · simp only [get_route, hlook]
    rw [if_neg (by show ¬ t + expiration_hours < t; omega)]
  · intro hT
    refine ⟨?_, lookupKey_eraseKey_self .., ?_⟩
    · simp only [get_route, hlook]
      rw [if_pos (by exact hT)]
    · intro s0 h0
      simp only [get_route, h0]

/-- Witness for C3 at a concrete store, code and payload, with the expired
read 25 hours after the write. -/
theorem claim3_witness :
    get_route ((store_route [] 0 7 ⟨[], 0, 0, []⟩).1) 0 7
        = ((store_route [] 0 7 ⟨[], 0, 0, []⟩).1, some ⟨[], 0, 0, []⟩) ∧
    get_route ((store_route [] 0 7 ⟨[], 0, 0, []⟩).1) 25 7
        = (eraseKey 7 ((store_route [] 0 7 ⟨[], 0, 0, []⟩).1), none) ∧
    lookupKey 7 (eraseKey 7 ((store_route [] 0 7 ⟨[], 0, 0, []⟩).1)) = none := by
  have h := claim3_put_get_ttl [] 0 25 7 ⟨[], 0, 0, []⟩
  have h2 := h.2 (by decide)
  exact ⟨h.1, h2.1, h2.2.1⟩

theorem chunksAux_fuel (n : ℕ) (hn : 0 < n) :
    ∀ (f1 : ℕ) (l : List ℕ) (f2 : ℕ), l.length ≤ f1 → l.length ≤ f2 →
      chunksAux n f1 l = chunksAux n f2 l := by
  intro f1
  induction f1 with
  | zero =>
    intro l f2 h1 h2
    have : l = [] := List.eq_nil_of_length_eq_zero (Nat.le_zero.1 h1)
    subst this
    cases f2 <;> simp [chunksAux]
  | succ f1 ih =>
    intro l f2 h1 h2
    cases l with
    | nil => cases f2 <;> simp [chunksAux]
    | cons x xs =>
      cases f2 with
      | zero => simp at h2
      | succ f2 =>
        simp only [chunksAux, List.isEmpty_cons, Bool.false_eq_true, if_false]
        congr 1
        apply ih
        · simp only [List.length_drop, List.length_cons] at *
          omega
        · simp only [List.length_drop, List.length_cons] at *
          omega

theorem chunksOf_cons (n : ℕ) (hn : 0 < n) (l : List ℕ) (hl : l ≠ []) :
    chunksOf n l = l.take n :: chunksOf n (l.drop n) := by
  cases l with
  | nil => exact absurd rfl hl
  | cons x xs =>
    show chunksAux n (xs.length + 1) (x :: xs) = _
    simp only [chunksAux, List.isEmpty_cons, Bool.false_eq_true, if_false]
    congr 1
    apply chunksAux_fuel n hn
    · simp only [List.length_drop, List.length_cons]
      omega
    · exact le_rfl

theorem chunksOf_flattenAux (n : ℕ) (hn : 0 < n) :
    ∀ (fuel : ℕ) (l : List ℕ), l.length ≤ fuel → (chunksAux n fuel l).flatten = l := by
  intro fuel
  induction fuel with
  | zero =>
    intro l h
    have : l = [] := List.eq_nil_of_length_eq_zero (Nat.le_zero.1 h)
    subst this
    simp [chunksAux]
  | succ fuel ih =>
    intro l h
    cases l with
    | nil => simp [chunksAux]
    | cons x xs =>
      simp only [chunksAux, List.isEmpty_cons, Bool.false_eq_true, if_false,
        List.flatten_cons]
      rw [ih]
      · exact List.take_append_drop ..
      · simp only [List.length_drop, List.length_cons] at *
        omega

theorem chunksOf_flatten (n : ℕ) (hn : 0 < n) (l : List ℕ) :
    (chunksOf n l).flatten = l :=
  chunksOf_flattenAux n hn l.length l le_rfl

theorem removeAll_append (a b : List ℕ) (s : Store) :
    removeAll (a ++ b) s = removeAll b (removeAll a s) :=
  List.foldl_append ..

theorem sweepChunks_spec (ok : ℕ → Bool) :
    ∀ (cs : List (List ℕ)) (s : Store) (d e i : ℕ),
      sweepChunks ok cs s d e i
        = ⟨removeAll (okFlat ok i cs) s, d + sumIf ok true i cs,
           e + sumIf ok false i cs, i + cs.length⟩ := by
  intro cs
  induction cs with
  | nil => intro s d e i; simp [sweepChunks, okFlat, sumIf, removeAll]
  | cons c cs ih =>
    intro s d e i
    cases h : ok i with
    | false =>
      simp only [sweepChunks, h, Bool.false_eq_true, if_false]
      rw [ih]
      have e1 : okFlat ok i (c :: cs) = okFlat ok (i + 1) cs := by simp [okFlat, h]
      have e2 : sumIf ok true i (c :: cs) = sumIf ok true (i + 1) cs := by simp [sumIf, h]
      have e3 : sumIf ok false i (c :: cs) = c.length + sumIf ok false (i + 1) cs := by
        simp [sumIf, h]
      rw [e1, e2, e3]
      congr 1 <;> first | rfl | (simp only [List.length_cons]; omega) | omega
    | true =>
      simp only [sweepChunks, h, if_true]
      rw [ih]
      have e1 : okFlat ok i (c :: cs) = c ++ okFlat ok (i + 1) cs := by simp [okFlat, h]
      have e2 : sumIf ok true i (c :: cs) = c.length + sumIf ok true (i + 1) cs := by
        simp [sumIf, h]
      have e3 : sumIf ok false i (c :: cs) = sumIf ok false (i + 1) cs := by
        simp [sumIf, h]
      rw [e1, e2, e3, removeAll_append]
      congr 1 <;> first | rfl | (simp only [List.length_cons]; omega) | omega

theorem sumIf_true_add_false (ok : ℕ → Bool) :
    ∀ (cs : List (List ℕ)) (i : ℕ),
      sumIf ok true i cs + sumIf ok false i cs = (cs.map List.length).sum := by
  intro cs
  induction cs with
  | nil => intro i; simp [sumIf]
  | cons c cs ih =>
    intro i
    cases h : ok i with
    | false => simp [sumIf, h, ← ih (i + 1)]; omega
    | true => simp [sumIf, h, ← ih (i + 1)]; omega

theorem sumIf_allOk_false :
    ∀ (cs : List (List ℕ)) (i : ℕ), sumIf (fun _ => true) false i cs = 0 := by
  intro cs
  induction cs with
  | nil => intro i; simp [sumIf]
  | cons c cs ih => intro i; simp [sumIf, ih (i + 1)]

theorem okFlat_allOk :
    ∀ (cs : List (List ℕ)) (i : ℕ), okFlat (fun _ => true) i cs = cs.flatten := by
  intro cs
  induction cs with
  | nil => intro i; simp [okFlat]
  | cons c cs ih => intro i; simp [okFlat, ih (i + 1)]

theorem sweepAux_chunks (ok : ℕ → Bool) :
    ∀ (docs batch : List ℕ) (s : Store) (d e i : ℕ), batch.length < max_batch_size →
      sweepAux ok docs s batch batch.length d e i
        = sweepChunks ok (chunksOf max_batch_size (batch ++ docs)) s d e i := by
  intro docs
  induction docs with
  | nil =>
    intro batch s d e i hb
    simp only [sweepAux, List.append_nil]
    by_cases h0 : 0 < batch.length
    · rw [if_pos h0]
      have hbne : batch ≠ [] := by
        intro he
        rw [he] at h0
        simp at h0
      rw [chunksOf_cons max_batch_size (by simp [max_batch_size]) batch hbne]
      rw [List.take_of_length_le hb.le, List.drop_eq_nil_of_le hb.le]
      simp [chunksOf, chunksAux, sweepChunks]
    · rw [if_neg h0]
      have : batch = [] := List.eq_nil_of_length_eq_zero (by omega)
      subst this
      simp [chunksOf, chunksAux, sweepChunks]
  | cons doc docs ih =>
    intro batch s d e i hb
    simp only [sweepAux]
    by_cases hfull : max_batch_size ≤ batch.length + 1
    · rw [if_pos hfull]
      have hbatch' : (batch ++ [doc]).length = max_batch_size := by
        simp only [List.length_append, List.length_singleton]
        omega
      have hcomb : batch ++ doc :: docs = (batch ++ [doc]) ++ docs := by simp
      rw [hcomb]
      have hcne : (batch ++ [doc]) ++ docs ≠ [] := by simp
      rw [chunksOf_cons max_batch_size (by simp [max_batch_size]) _ hcne]
      rw [show ((batch ++ [doc]) ++ docs).take max_batch_size = batch ++ [doc] by
        rw [← hbatch']
        exact List.take_left ..]
      rw [show ((batch ++ [doc]) ++ docs).drop max_batch_size = docs by
        rw [← hbatch']
        exact List.drop_left ..]
      simp only [sweepChunks]
      cases hok : ok i with
      | false =>
        simp only [Bool.false_eq_true, if_false]
        have h := ih [] s (d) (e + (batch.length + 1)) (i + 1) (by simp [max_batch_size])
        simp only [List.length_nil, List.nil_append] at h
        rw [h]
        congr 2
        rw [hbatch']
        omega
      | true =>
        simp only [if_true]
        have h := ih [] (removeAll (batch ++ [doc]) s) (d + (batch.length + 1)) e (i + 1)
          (by simp [max_batch_size])
        simp only [List.length_nil, List.nil_append] at h
        rw [h]
        congr 2
        rw [hbatch']
        omega
    · rw [if_neg hfull]
      have hb' : (batch ++ [doc]).length < max_batch_size := by
        simp only [List.length_append, List.length_singleton]
        omega
      have h := ih (batch ++ [doc]) s d e i hb'
      simp only [List.length_append, List.length_singleton] at h
      rw [h]
      congr 2
      simp

theorem lookupKey_eraseKey_ne (c c' : ℕ) (hne : c ≠ c') :
    ∀ s : Store, lookupKey c (eraseKey c' s) = lookupKey c s := by
  intro s
  induction s with
  | nil => rfl
  | cons kv t ih =>
    obtain ⟨k, e⟩ := kv
    simp only [eraseKey, List.filter_cons] at ih ⊢
    by_cases h : k = c'
    · subst h
      simp only [show ((k, e).1 != k) = false by simp, Bool.false_eq_true, if_false]
      rw [ih]
      have hk : k ≠ c := fun hh => hne hh.symm
      simp [lookupKey, hk]
    · simp only [show ((k, e).1 != c') = true by simpa using h, if_true]
      by_cases hk : k = c
      · subst hk
        simp [lookupKey, ih]
      · simp [lookupKey, hk, ih]

theorem lookupKey_removeAll_not_mem :
    ∀ (codes : List ℕ) (c : ℕ), c ∉ codes →
      ∀ s : Store, lookupKey c (removeAll codes s) = lookupKey c s := by
  intro codes
  induction codes with
  | nil => intro c _ s; rfl
  | cons x xs ih =>
    intro c hc s
    have hx : c ≠ x := fun h => hc (h ▸ List.mem_cons_self ..)
    have hxs : c ∉ xs := fun h => hc (List.mem_cons_of_mem _ h)
    show lookupKey c (removeAll xs (eraseKey x s)) = _
    rw [ih c hxs, lookupKey_eraseKey_ne c x hx]

theorem lookupKey_of_mem_nodup :
    ∀ (s : Store), (s.map Prod.fst).Nodup →
      ∀ (c : ℕ) (e : StoredEntry), (c, e) ∈ s → lookupKey c s = some e := by
  intro s
  induction s with
  | nil => intro _ c e h; simp at h
  | cons kv t ih =>
    obtain ⟨k, e'⟩ := kv
    intro hnd c e hmem
    rw [List.map_cons, List.nodup_cons] at hnd
    rcases List.mem_cons.1 hmem with h | h
    · injection h with h1 h2
      subst h1
      subst h2
      simp [lookupKey]
    · by_cases hk : k = c
      · exfalso
        subst hk
        have hmm : (k, e).1 ∈ t.map Prod.fst := List.mem_map_of_mem Prod.fst h
        exact hnd.1 hmm
      · simp only [lookupKey, if_neg hk]
        exact ih hnd.2 c e h

theorem not_mem_expiredCodes (s : Store) (now : ℕ)
    (hkeys : (s.map Prod.fst).Nodup) (c : ℕ) (e : StoredEntry)
    (hl : lookupKey c s = some e) (hlive : ¬ e.expires_at < now) :
    c ∉ expiredCodes s now := by
  intro hc
  simp only [expiredCodes, List.mem_map, List.mem_filter] at hc
  obtain ⟨⟨k, e'⟩, ⟨hmem, hexp⟩, hfst⟩ := hc
  have hk : k = c := hfst
  subst hk
  have hlk := lookupKey_of_mem_nodup s hkeys k e' hmem
  rw [hl] at hlk
  have he : e = e' := Option.some.inj hlk
  subst he
  exact hlive (of_decide_eq_true hexp)

/-- Claim C8: the sweep processes every discovered batch independently —
the deleted count is the total size of the batches whose commit succeeded,
the error count the total size of the batches whose commit failed (each
failed batch adds its size and does not stop later batches), every entry is
accounted (deleted + errors = number of discovered expired docs), and the
number of attempted commits equals the number of discovered batches
regardless of the outcomes; the sweep returns these counts rather than
raising. -/
theorem claim8_sweep_independent_batches (s : Store) (now : ℕ) (ok : ℕ → Bool) :
    (cleanup_expired_routes s now ok).deleted
        = sumIf ok true 0 (chunksOf max_batch_size (expiredCodes s now)) ∧
    (cleanup_expired_routes s now ok).errors
        = sumIf ok false 0 (chunksOf max_batch_size (expiredCodes s now)) ∧
    (cleanup_expired_routes s now ok).deleted + (cleanup_expired_routes s now ok).errors
        = (expiredCodes s now).length ∧
    (cleanup_expired_routes s now ok).commits
        = (chunksOf max_batch_size (expiredCodes s now)).length := by
  have h := sweepAux_chunks ok (expiredCodes s now) [] s 0 0 0 (by simp [max_batch_size])
  have hc : cleanup_expired_routes s now ok
      = sweepChunks ok (chunksOf max_batch_size (expiredCodes s now)) s 0 0 0 := by
    rw [cleanup_expired_routes]
    simpa using h
  rw [hc, sweepChunks_spec]
  refine ⟨by simp, by simp, ?_, by simp⟩
  simp only [Nat.zero_add]
  rw [sumIf_true_add_false]
  rw [← List.length_flatten, chunksOf_flatten max_batch_size (by simp [max_batch_size])]

/-- Claim C4: a sweep over a store holding 1200 expired and 50 non-expired
entries, with the batch cap of 500 and all commits succeeding, performs
exactly 3 batch commits, reports exactly 1200 deletions and no errors, and
leaves every non-expired entry unchanged in the store. -/
theorem claim4_sweep_1200 (s : Store) (now : ℕ)
    (hkeys : (s.map Prod.fst).Nodup)
    (hexp : (expiredCodes s now).length = 1200)
    (_hlive : (s.filter fun kv => decide (now ≤ kv.2.expires_at)).length = 50) :
    (cleanup_expired_routes s now (fun _ => true)).commits = 3 ∧
    (cleanup_expired_routes s now (fun _ => true)).deleted = 1200 ∧
    (cleanup_expired_routes s now (fun _ => true)).errors = 0 ∧
    ∀ (c : ℕ) (e : StoredEntry), lookupKey c s = some e → ¬ e.expires_at < now →
      lookupKey c (cleanup_expired_routes s now (fun _ => true)).store = some e := by
  have h500 : (0 : ℕ) < max_batch_size := by simp [max_batch_size]
  have h := sweepAux_chunks (fun _ => true) (expiredCodes s now) [] s 0 0 0
    (by simp [max_batch_size])
  have hc : cleanup_expired_routes s now (fun _ => true)
      = sweepChunks (fun _ => true)
          (chunksOf max_batch_size (expiredCodes s now)) s 0 0 0 := by
    rw [cleanup_expired_routes]
    simpa using h
  have hne1 : expiredCodes s now ≠ [] := by
    intro he
    rw [he] at hexp
    simp at hexp
  have hd1 : ((expiredCodes s now).drop max_batch_size).length = 700 := by
    rw [List.length_drop, hexp]
    rfl
  have hne2 : (expiredCodes s now).drop max_batch_size ≠ [] := by
    intro he
    rw [he] at hd1
    simp at hd1
  have hd2 : (((expiredCodes s now).drop max_batch_size).drop max_batch_size).length
      = 200 := by
    rw [List.length_drop, hd1]
    rfl
  have hne3 : ((expiredCodes s now).drop max_batch_size).drop max_batch_size ≠ [] := by
    intro he
    rw [he] at hd2
    simp at hd2
  have hd3 : ((((expiredCodes s now).drop max_batch_size).drop
      max_batch_size).drop max_batch_size) = [] := by
    apply List.eq_nil_of_length_eq_zero
    rw [List.length_drop, hd2]
    rfl
  have hchunks : chunksOf max_batch_size (expiredCodes s now)
      = [(expiredCodes s now).take max_batch_size,
         ((expiredCodes s now).drop max_batch_size).take max_batch_size,
         (((expiredCodes s now).drop max_batch_size).drop max_batch_size).take
           max_batch_size] := by
    rw [chunksOf_cons max_batch_size h500 _ hne1,
        chunksOf_cons max_batch_size h500 _ hne2,
        chunksOf_cons max_batch_size h500 _ hne3,
        hd3]
    rfl
  rw [hc, sweepChunks_spec]
  refine ⟨?_, ?_, ?_, ?_⟩
  · show 0 + (chunksOf max_batch_size (expiredCodes s now)).length = 3
    rw [hchunks]
    rfl
  · show 0 + sumIf (fun _ => true) true 0 (chunksOf max_batch_size (expiredCodes s now))
        = 1200
    have hsum := sumIf_true_add_false (fun _ => true)
      (chunksOf max_batch_size (expiredCodes s now)) 0
    rw [sumIf_allOk_false] at hsum
    rw [← List.length_flatten, chunksOf_flatten max_batch_size h500, hexp] at hsum
    omega
  · show 0 + sumIf (fun _ => true) false 0 (chunksOf max_batch_size (expiredCodes s now))
        = 0
    rw [sumIf_allOk_false]
  · intro c e hl hlive'
    show lookupKey c
        (removeAll (okFlat (fun _ => true) 0 (chunksOf max_batch_size (expiredCodes s now)))
          s) = some e
    rw [okFlat_allOk, chunksOf_flatten max_batch_size h500]
    rw [lookupKey_removeAll_not_mem _ c
      (not_mem_expiredCodes s now hkeys c e hl hlive') s]
    exact hl

/-- Witness for C4: the concrete 1250-entry store `c4Store` (1200 expired,
50 live at time 100). -/
theorem claim4_witness :
    (cleanup_expired_routes c4Store 100 (fun _ => true)).commits = 3 ∧
    (cleanup_expired_routes c4Store 100 (fun _ => true)).deleted = 1200 ∧
    (cleanup_expired_routes c4Store 100 (fun _ => true)).errors = 0 ∧
    lookupKey 1249 (cleanup_expired_routes c4Store 100 (fun _ => true)).store
      = some ⟨⟨[], 0, 0, []⟩, 200⟩ := by
  have hkeys : (c4Store.map Prod.fst).Nodup := by
    have hmap : c4Store.map Prod.fst = List.range 1250 := by
      rw [c4Store, List.map_map]
      exact List.map_id' _
    rw [hmap]
    exact List.nodup_range ..
  have h := claim4_sweep_1200 c4Store 100 hkeys (by decide) (by decide)
  refine ⟨h.1, h.2.1, h.2.2.1, ?_⟩
  exact h.2.2.2 1249 ⟨⟨[], 0, 0, []⟩, 200⟩ (by decide) (by decide)

/-- Claim C10: `optimize_route` is total — the surrounding `try/except`
turns every exception into a returned dict — and on every failure path
(home index out of range, empty waypoint set, non-OK matrix-source status,
or any exception during matrix extraction, solving or assembly) the
returned dict carries a non-`None` error message together with an empty
route, zero totals and an empty URL. -/
theorem claim10_error_contract (addresses : List Waypoint) (homeIndex : ℕ)
    (resp : MatrixResp) :
    ((optimize_route addresses homeIndex resp).error ≠ none →
      (optimize_route addresses homeIndex resp).route = [] ∧
      (optimize_route addresses homeIndex resp).total_distance = 0 ∧
      (optimize_route addresses homeIndex resp).total_duration = 0 ∧
      (optimize_route addresses homeIndex resp).google_maps_url = []) ∧
    (addresses.get? homeIndex = none →
      (optimize_route addresses homeIndex resp).error ≠ none) ∧
    (addresses.length ≤ 1 →
      (optimize_route addresses homeIndex resp).error ≠ none) ∧
    (resp.status ≠ okStatus →
      (optimize_route addresses homeIndex resp).error ≠ none) := by
  refine ⟨?_, ?_, ?_, ?_⟩
  · intro herr
    rcases hbody : optimize_route_body addresses homeIndex resp with e | r
    · have hopt : optimize_route addresses homeIndex resp
          = errResult (msgFailPrefix ++ e) := by
        rw [optimize_route, hbody]
      rw [hopt]
      exact ⟨rfl, rfl, rfl, rfl⟩
    · have hopt : optimize_route addresses homeIndex resp = r := by
        rw [optimize_route, hbody]
      rw [hopt] at herr ⊢
      unfold optimize_route_body at hbody
      dsimp only at hbody
      repeat' split at hbody
      all_goals try injection hbody with hr
      all_goals first
        | exact absurd hbody (by simp)
        | (subst hr; first
            | exact ⟨rfl, rfl, rfl, rfl⟩
            | exact absurd rfl herr)
  · intro hget
    have hbody : optimize_route_body addresses homeIndex resp
        = Except.error msgIndexError := by
      unfold optimize_route_body
      rw [hget]
    rw [optimize_route, hbody]
    simp [errResult]
  · intro hlen
    cases addresses with
    | nil =>
      have hbody : optimize_route_body [] homeIndex resp
          = Except.error msgIndexError := rfl
      rw [optimize_route, hbody]
      simp [errResult]
    | cons a t =>
      cases t with
      | cons b t' =>
        exfalso
        simp at hlen
      | nil =>
        cases homeIndex with
        | succ k =>
          have hbody : optimize_route_body [a] (k + 1) resp
              = Except.error msgIndexError := rfl
          rw [optimize_route, hbody]
          simp [errResult]
        | zero =>
          have hbody : optimize_route_body [a] 0 resp
              = Except.ok (errResult msgNoWaypoints) := rfl
          rw [optimize_route, hbody]
          simp [errResult]
  · intro hstat
    rcases hget : addresses.get? homeIndex with _ | a
    · have hbody : optimize_route_body addresses homeIndex resp
          = Except.error msgIndexError := by
        unfold optimize_route_body
        rw [hget]
      rw [optimize_route, hbody]
      simp [errResult]
    · by_cases hemp :
        ((addresses.enum.filter fun p => p.1 != homeIndex).map fun p => p.2).isEmpty
      · have hbody : optimize_route_body addresses homeIndex resp
            = Except.ok (errResult msgNoWaypoints) := by
          unfold optimize_route_body
          rw [hget]
          dsimp only
          rw [if_pos hemp]
        rw [optimize_route, hbody]
        simp [errResult]
      · have hbody : optimize_route_body addresses homeIndex resp
            = Except.ok (errResult msgApiError) := by
          unfold optimize_route_body
          rw [hget]
          dsimp only
          rw [if_neg hemp, if_pos hstat]
        rw [optimize_route, hbody]
        simp [errResult]

/-- Witness for C10: an empty address list (home index out of range) yields
a dict with a non-`None` error and an empty route. -/
theorem claim10_witness :
    (optimize_route [] 0 ⟨okStatus, []⟩).error ≠ none ∧
    (optimize_route [] 0 ⟨okStatus, []⟩).route = [] := by
  have h := claim10_error_contract [] 0 ⟨okStatus, []⟩
  have herr := h.2.1 (by decide)
  exact ⟨herr, (h.1 herr).1⟩
